import Mathlib

/-!
Verification of the Doc-ranker ranking pipeline (`src/ranker.py`).

Modelling conventions (shallow embedding):
* A *word* is a `String`; a *sentence* is the list of its whitespace-split
  words (`s.split()` in the source).  The source manipulates chunks as
  space-joined strings and always re-splits them before counting or slicing
  words, so joining buffers of sentences corresponds to `List.join` and
  `len(x.split())` corresponds to `List.length` at the word level.
* Similarity scores (numpy floats) are modelled as exact rationals `ℚ`; the
  claims under study are about grouping, averaging and ordering, not about
  rounding.
* The embedding model (`SentenceTransformer.encode`) is an opaque
  deterministic function, passed as a parameter `embed`.
* The faiss index search is opaque; its documented output shape for
  `IndexFlatIP.search` (exactly `k` rows; real, in-bounds positions first,
  `-1` padding when the index holds fewer than `k` vectors) is captured by
  the predicate `faissResult`, which theorems take as a hypothesis.
* Python list indexing `meta[i]` with an `Int` index (negative indices count
  from the end, out-of-range raises) is modelled by `pyGet`, returning
  `Option`; a `none` models the uncaught `IndexError`.
* Fallible pipeline stages return `Option`/`Except`; `none`/`.error` model
  an aborted run.
-/

namespace DocRanker

/-- Configuration constants from `src/ranker.py` lines 23-25. -/
def CHUNK_WORDS : Nat := 500

def CHUNK_OVERLAP : Nat := 80

def TOP_K : Nat := 50

/-- Python's `xs[-n:]` slice on a list (for `n ≥ 1`): the last `min n xs.length`
elements.  Used by the chunker for the overlap tail (`ranker.py` line 65). -/
def takeLast {α : Type} (n : Nat) (l : List α) : List α :=
  l.drop (l.length - n)

/-- One iteration of the sentence loop of `chunk_text` (`ranker.py` lines 57-67).
State is `(chunks, buf, buf_words)` exactly as in the source; `s` is the next
sentence (as its word list). -/
def chunkStep (cw ov : Nat)
    (st : List (List String) × List (List String) × Nat) (s : List String) :
    List (List String) × List (List String) × Nat :=
  if st.2.2 + s.length ≤ cw then
    (st.1, st.2.1 ++ [s], st.2.2 + s.length)
  else
    let closed := st.2.1.flatten
    let tail := takeLast ov closed
    (st.1 ++ [closed], [tail, s], tail.length + s.length)

/-- The final `if buf:` flush of `chunk_text` (`ranker.py` lines 69-70). -/
def flushState (st : List (List String) × List (List String) × Nat) :
    List (List String) :=
  if st.2.1.isEmpty then st.1 else st.1 ++ [st.2.1.flatten]

/-- The chunk list of `chunk_text` before the final `> 40` filter
(`ranker.py` lines 53-70): run the loop from the empty state, then flush a
non-empty buffer. -/
def preChunks (cw ov : Nat) (sents : List (List String)) : List (List String) :=
  flushState (sents.foldl (chunkStep cw ov) ([], [], 0))

/-- `chunk_text` from `ranker.py` lines 51-72: the loop above followed by the
post-filter keeping only chunks of word count `> 40` (line 72). -/
def chunk_text (cw ov : Nat) (sents : List (List String)) : List (List String) :=
  (preChunks cw ov sents).filter (fun c => 40 < c.length)

/-- Modelled from the spec (§4.2 Chunker), for the refinement claim: accumulate
sentences while the running word count stays at or under the target; on
overflow close the buffer as a chunk and seed the next buffer with the last
`overlap` words of the just-closed chunk plus the triggering sentence; after
all sentences, flush any non-empty remaining buffer. -/
def chunkSpecAux (cw ov : Nat) (buf : List (List String)) (bw : Nat) :
    List (List String) → List (List String)
  | [] => if buf.isEmpty then [] else [buf.flatten]
  | s :: rest =>
    if bw + s.length ≤ cw then
      chunkSpecAux cw ov (buf ++ [s]) (bw + s.length) rest
    else
      buf.flatten ::
        chunkSpecAux cw ov [takeLast ov buf.flatten, s]
          ((takeLast ov buf.flatten).length + s.length) rest

/-- Modelled from the spec (§4.2 Chunker): the accumulation loop followed by the
post-filter discarding chunks of word count at or below 40. -/
def chunkSpec (cw ov : Nat) (sents : List (List String)) : List (List String) :=
  (chunkSpecAux cw ov [] 0 sents).filter (fun c => 40 < c.length)

/-- Unfolding bridge: the source's fold-with-state equals the structural
recursion, for any intermediate state. -/
theorem foldl_chunkStep_eq (cw ov : Nat) (sents : List (List String)) :
    ∀ (chunks buf : List (List String)) (bw : Nat),
      flushState (sents.foldl (chunkStep cw ov) (chunks, buf, bw)) =
      chunks ++ chunkSpecAux cw ov buf bw sents := by
  induction sents with
  | nil =>
    intro chunks buf bw
    simp only [List.foldl_nil, chunkSpecAux, flushState]
    by_cases h : buf.isEmpty <;> simp [h]
  | cons s rest ih =>
    intro chunks buf bw
    simp only [List.foldl_cons, chunkStep, chunkSpecAux]
    by_cases h : bw + s.length ≤ cw
    · simp only [h, if_pos]
      rw [ih]
    · simp only [h, if_neg, not_false_iff]
      rw [ih]
      simp

/-- The pre-filter chunk list equals the spec-side accumulation. -/
theorem preChunks_eq_chunkSpecAux (cw ov : Nat) (sents : List (List String)) :
    preChunks cw ov sents = chunkSpecAux cw ov [] 0 sents := by
  have h := foldl_chunkStep_eq cw ov sents [] [] 0
  simpa [preChunks] using h

/-- The first chunk the accumulation emits extends the starting buffer: the
buffer only ever grows by whole sentences until it is closed. -/
theorem chunkSpecAux_head_prefix (cw ov : Nat) (sents : List (List String)) :
    ∀ (buf : List (List String)) (bw : Nat) (c : List String) (l : List (List String)),
      chunkSpecAux cw ov buf bw sents = c :: l → buf.flatten <+: c := by
  induction sents with
  | nil =>
    intro buf bw c l h
    simp only [chunkSpecAux] at h
    by_cases hb : buf.isEmpty
    · simp [hb] at h
    · simp only [hb, if_neg, Bool.false_eq_true, not_false_iff] at h
      cases h
      exact List.prefix_rfl
  | cons s rest ih =>
    intro buf bw c l h
    simp only [chunkSpecAux] at h
    by_cases hf : bw + s.length ≤ cw
    · rw [if_pos hf] at h
      have := ih (buf ++ [s]) (bw + s.length) c l h
      calc buf.flatten <+: (buf ++ [s]).flatten := by
              simp [List.flatten_append]
           _ <+: c := this
    · rw [if_neg hf] at h
      cases h
      exact List.prefix_rfl

/-- Adjacent chunks of the accumulation: the `overlap`-tail of each chunk is a
prefix of the next chunk (the seeding at `ranker.py` lines 65-66). -/
theorem chunkSpecAux_chain (cw ov : Nat) (sents : List (List String)) :
    ∀ (buf : List (List String)) (bw : Nat),
      List.Chain' (fun c c' => takeLast ov c <+: c')
        (chunkSpecAux cw ov buf bw sents) := by
  induction sents with
  | nil =>
    intro buf bw
    simp only [chunkSpecAux]
    by_cases hb : buf.isEmpty <;> simp [hb]
  | cons s rest ih =>
    intro buf bw
    simp only [chunkSpecAux]
    by_cases hf : bw + s.length ≤ cw
    · rw [if_pos hf]; exact ih _ _
    · rw [if_neg hf]
      rw [List.chain'_cons']
      refine ⟨?_, ih _ _⟩
      intro c hc
      rcases hrec : chunkSpecAux cw ov [takeLast ov buf.flatten, s]
          ((takeLast ov buf.flatten).length + s.length) rest with _ | ⟨c', l'⟩
      · rw [hrec] at hc; simp at hc
      · rw [hrec] at hc
        simp only [List.head?_cons, Option.mem_def, Option.some.injEq] at hc
        subst hc
        have hpre := chunkSpecAux_head_prefix cw ov rest _ _ _ _ hrec
        have : takeLast ov buf.flatten <+:
            ([takeLast ov buf.flatten, s] : List (List String)).flatten := by
          simp
        exact this.trans hpre

/-- Every element of the running buffer ends up intact (as a contiguous infix)
inside some chunk of the accumulation. -/
theorem chunkSpecAux_buf_infix (cw ov : Nat) (sents : List (List String)) :
    ∀ (buf : List (List String)) (bw : Nat) (b : List String),
      b ∈ buf → ∃ c ∈ chunkSpecAux cw ov buf bw sents, b <:+: c := by
  induction sents with
  | nil =>
    intro buf bw b hb
    have hne : buf.isEmpty = false := by
      cases buf with
      | nil => simp at hb
      | cons x xs => rfl
    simp only [chunkSpecAux, hne, Bool.false_eq_true, if_neg, not_false_iff]
    exact ⟨buf.flatten, by simp, List.infix_of_mem_flatten hb⟩
  | cons s rest ih =>
    intro buf bw b hb
    simp only [chunkSpecAux]
    by_cases hf : bw + s.length ≤ cw
    · rw [if_pos hf]
      exact ih _ _ b (by simp [hb])
    · rw [if_neg hf]
      exact ⟨buf.flatten, by simp, List.infix_of_mem_flatten hb⟩

/-- Every input sentence lands intact (as a contiguous infix) inside some chunk
of the accumulation: no sentence is ever split across chunk boundaries. -/
theorem chunkSpecAux_sentence_infix (cw ov : Nat) (sents : List (List String)) :
    ∀ (buf : List (List String)) (bw : Nat) (s : List String),
      s ∈ sents → ∃ c ∈ chunkSpecAux cw ov buf bw sents, s <:+: c := by
  induction sents with
  | nil => intro _ _ _ h; simp at h
  | cons s₀ rest ih =>
    intro buf bw s hs
    simp only [chunkSpecAux]
    rcases List.mem_cons.mp hs with heq | hmem
    · subst heq
      by_cases hf : bw + s.length ≤ cw
      · rw [if_pos hf]
        exact chunkSpecAux_buf_infix cw ov rest _ _ s (by simp)
      · rw [if_neg hf]
        obtain ⟨c, hc, hinf⟩ :=
          chunkSpecAux_buf_infix cw ov rest [takeLast ov buf.flatten, s]
            ((takeLast ov buf.flatten).length + s.length) s (by simp)
        exact ⟨c, by simp [hc], hinf⟩
    · by_cases hf : bw + s₀.length ≤ cw
      · rw [if_pos hf]
        exact ih _ _ s hmem
      · rw [if_neg hf]
        obtain ⟨c, hc, hinf⟩ :=
          ih [takeLast ov buf.flatten, s₀]
            ((takeLast ov buf.flatten).length + s₀.length) s hmem
        exact ⟨c, by simp [hc], hinf⟩

/-- Length of the Python tail slice `xs[-n:]`. -/
theorem takeLast_length {α : Type} (n : Nat) (l : List α) :
    (takeLast n l).length = l.length - (l.length - n) := by
  simp [takeLast]

/-- C3: the chunker accumulates sentences while the running word count stays at
or under the target; on overflow it closes the buffer as a chunk and seeds the
next buffer with the last `overlap` words of the just-closed chunk plus the
triggering sentence; after all sentences it flushes any non-empty remaining
buffer (refinement: the source's loop equals the spec-side accumulation,
post-filter included); and no sentence — in particular a single sentence longer
than the target — is ever split across chunks: each sentence appears intact
inside some chunk the loop forms. -/
theorem chunkText_follows_spec (cw ov : Nat) (hcw : 0 < cw) (hov : 0 < ov)
    (sents : List (List String)) :
    chunk_text cw ov sents = chunkSpec cw ov sents ∧
    ∀ s ∈ sents, ∃ c ∈ preChunks cw ov sents, s <:+: c := by
  constructor
  · unfold chunk_text chunkSpec
    rw [preChunks_eq_chunkSpecAux]
  · intro s hs
    rw [preChunks_eq_chunkSpecAux]
    exact chunkSpecAux_sentence_infix cw ov sents [] 0 s hs

/-- Witness for C3 at a concrete input: two sentences, the second longer than
the target chunk size of 3 words. -/
theorem chunkText_follows_spec_witness :
    chunk_text 3 1 [["a", "b"], ["c", "d", "e", "f"]] =
        chunkSpec 3 1 [["a", "b"], ["c", "d", "e", "f"]] ∧
    ∀ s ∈ [["a", "b"], ["c", "d", "e", "f"]],
      ∃ c ∈ preChunks 3 1 [["a", "b"], ["c", "d", "e", "f"]], s <:+: c :=
  chunkText_follows_spec 3 1 (by decide) (by decide) [["a", "b"], ["c", "d", "e", "f"]]

/-- C4: every chunk retained by the chunker has word count strictly greater
than the minimum-content threshold of 40 words (`ranker.py` line 72). -/
theorem chunkText_min_word_count (cw ov : Nat) (sents : List (List String))
    (c : List String) (hc : c ∈ chunk_text cw ov sents) : 40 < c.length := by
  have := List.mem_filter.mp hc
  exact of_decide_eq_true this.2

/-- Witness for C4 at a concrete input: a single 41-word sentence is retained. -/
theorem chunkText_min_word_count_witness : 40 < (List.replicate 41 "w").length :=
  chunkText_min_word_count 500 80 [List.replicate 41 "w"] (List.replicate 41 "w")
    (by decide)

set_option maxRecDepth 10000 in
/-- Counterexample to C9 as stated, at the default configuration
(`chunk_words = 500`, `overlap = 80`): a 45-word sentence followed by a
460-word sentence yields two consecutive retained chunks; no sentence exceeds
the target (so the oversized-seed exception cannot apply), yet the first 80
words of chunk 1 are not the last 80 words of chunk 0, because chunk 0 has
only 45 words and the seeded tail is `min(overlap, 45)` words long. -/
theorem chunk_overlap_counterexample :
    chunk_text 500 80 [List.replicate 45 "a", List.replicate 460 "b"] =
        [List.replicate 45 "a", List.replicate 45 "a" ++ List.replicate 460 "b"] ∧
    (∀ s ∈ [List.replicate 45 "a", List.replicate 460 "b"], s.length ≤ 500) ∧
    List.take 80 (List.replicate 45 "a" ++ List.replicate 460 "b") ≠
      takeLast 80 (List.replicate 45 "a") := by
  decide

/-- C9 (amended): for adjacent chunks of the loop (before the 40-word filter),
the last `min(overlap, |chunk i|)` words of chunk `i` — the Python slice
`[-overlap:]` — are a prefix of chunk `i+1`, with no oversized-sentence
exception needed; when chunk `i` has at least `overlap` words this gives the
claim's equality: the first `overlap` words of chunk `i+1` equal the last
`overlap` words of chunk `i`.  (Consecutive *retained* chunks coincide with
adjacent loop chunks whenever no intermediate chunk is discarded by the
filter, e.g. whenever `overlap > 40`.) -/
theorem chunk_overlap_amended (cw ov : Nat) (sents : List (List String))
    (i : Nat) (h : i + 1 < (preChunks cw ov sents).length) :
    takeLast ov ((preChunks cw ov sents).get ⟨i, Nat.lt_of_succ_lt h⟩) <+:
      (preChunks cw ov sents).get ⟨i + 1, h⟩ ∧
    (ov ≤ ((preChunks cw ov sents).get ⟨i, Nat.lt_of_succ_lt h⟩).length →
      List.take ov ((preChunks cw ov sents).get ⟨i + 1, h⟩) =
        takeLast ov ((preChunks cw ov sents).get ⟨i, Nat.lt_of_succ_lt h⟩)) := by
  have hch : List.Chain' (fun c c' => takeLast ov c <+: c') (preChunks cw ov sents) := by
    rw [preChunks_eq_chunkSpecAux]
    exact chunkSpecAux_chain cw ov sents [] 0
  have hR := List.chain'_iff_get.mp hch i (by omega)
  refine ⟨hR, ?_⟩
  intro hov
  obtain ⟨r, hr⟩ := hR
  have hlen : (takeLast ov ((preChunks cw ov sents).get ⟨i, Nat.lt_of_succ_lt h⟩)).length = ov := by
    rw [takeLast_length]
    omega
  rw [← hr]
  exact List.take_left' hlen

/-- Witness for C9's amended theorem at a concrete input: target 10, overlap 3,
sentences of 10 and 5 words. -/
theorem chunk_overlap_amended_witness :
    takeLast 3 ((preChunks 10 3 [List.replicate 10 "a", List.replicate 5 "b"]).get
        ⟨0, by decide⟩) <+:
      (preChunks 10 3 [List.replicate 10 "a", List.replicate 5 "b"]).get ⟨1, by decide⟩ ∧
    (3 ≤ ((preChunks 10 3 [List.replicate 10 "a", List.replicate 5 "b"]).get
        ⟨0, by decide⟩).length →
      List.take 3 ((preChunks 10 3 [List.replicate 10 "a", List.replicate 5 "b"]).get
          ⟨1, by decide⟩) =
        takeLast 3 ((preChunks 10 3 [List.replicate 10 "a", List.replicate 5 "b"]).get
          ⟨0, by decide⟩)) :=
  chunk_overlap_amended 10 3 [List.replicate 10 "a", List.replicate 5 "b"] 0 (by decide)

/-- One row of `zip(scores[0], ids[0])` (`ranker.py` line 137): a similarity
score and the faiss position id of the retrieved chunk (faiss ids are signed;
`-1` is the library's filler id). -/
structure Hit where
  score : ℚ
  id : Int
  deriving DecidableEq

/-- Python list indexing `l[i]` with an `Int` index: non-negative indices are
ordinary positions, negative indices count from the end; out of range is an
`IndexError`, modelled as `none`. -/
def pyGet {α : Type} (l : List α) (i : Int) : Option α :=
  if 0 ≤ i then l.get? i.toNat
  else if i.natAbs ≤ l.length then l.get? (l.length - i.natAbs)
  else none

/-- Contract of `faiss.IndexFlat*.search` on an index holding `n` vectors with
candidate count `k`: exactly `k` result rows; the leading `min n k` rows carry
real in-bounds positions, the remaining rows are filler with id `-1` (faiss's
padding when the index holds fewer than `k` vectors).  Theorems take this as a
hypothesis on the opaque search output. -/
def faissResult (n k : Nat) (hits : List Hit) : Prop :=
  hits.length = k ∧
  (∀ h ∈ hits.take n, 0 ≤ h.id ∧ h.id < (n : Int)) ∧
  (∀ h ∈ hits.drop n, h.id = -1)

instance (n k : Nat) (hits : List Hit) : Decidable (faissResult n k hits) := by
  unfold faissResult
  infer_instance

/-- `per_pdf[pdf].append(score)` on the insertion-ordered dict
(`ranker.py` lines 136-138): append to an existing key's list, else add the
new key at the end. -/
def addScore : List (String × List ℚ) → String → ℚ → List (String × List ℚ)
  | [], p, s => [(p, [s])]
  | (q, ss) :: rest, p, s =>
    if q = p then (q, ss ++ [s]) :: rest
    else (q, ss) :: addScore rest p s

/-- The grouping loop `for s, i in zip(scores[0], ids[0]): per_pdf[meta[i]["pdf"]].append(float(s))`
(`ranker.py` lines 137-138), from an arbitrary dict state; `none` models the
uncaught `IndexError` when `meta[i]` is out of range. -/
def groupHitsAux (meta : List String) :
    List (String × List ℚ) → List Hit → Option (List (String × List ℚ))
  | g, [] => some g
  | g, h :: rest =>
    match pyGet meta h.id with
    | none => none
    | some p => groupHitsAux meta (addScore g p h.score) rest

/-- The grouping loop started from the empty dict. -/
def groupHits (meta : List String) (hits : List Hit) :
    Option (List (String × List ℚ)) :=
  groupHitsAux meta [] hits

/-- `np.mean` of a non-empty score list, exactly. -/
def mean (l : List ℚ) : ℚ :=
  l.sum / l.length

/-- The scores the loop appends for document `p`: those of the hits whose
position id resolves to `p`. -/
def scoresFor (meta : List String) (hits : List Hit) (p : String) : List ℚ :=
  (hits.filter (fun h => pyGet meta h.id == some p)).map Hit.score

/-- Insertion step of a stable descending sort by a rational key: the new
element passes exactly the elements of strictly smaller key, so it lands after
every earlier element of equal or larger key.  This reproduces Python's
`sorted(..., key=..., reverse=True)`, which is stable; the stable descending
ordering of a list is unique, so any stable algorithm gives the same output. -/
def insertDesc {α : Type} (key : α → ℚ) (x : α) : List α → List α
  | [] => [x]
  | y :: ys => if key y < key x then x :: y :: ys else y :: insertDesc key x ys

/-- Stable descending sort by key (`sorted(..., key=lambda x: x[1], reverse=True)`,
`ranker.py` lines 140-144). -/
def sortDesc {α : Type} (key : α → ℚ) (l : List α) : List α :=
  l.foldl (fun acc x => insertDesc key x acc) []

/-- Per-document aggregate scores `(pdf, float(np.mean(v)))` (`ranker.py` line 141). -/
def meansOf (g : List (String × List ℚ)) : List (String × ℚ) :=
  g.map (fun pr => (pr.1, mean pr.2))

/-- The ranking step of `rank_with_queries` (`ranker.py` lines 136-144): group
the top-K hits by document via the position-aligned metadata, average each
document's matched-chunk scores, and sort descending by score (stable). -/
def rankHits (meta : List String) (hits : List Hit) :
    Option (List (String × ℚ)) :=
  (groupHits meta hits).map (fun g => sortDesc Prod.snd (meansOf g))

/-- The document ids of the retrieved candidates, in retrieval order (the
sequence of `meta[i]["pdf"]` lookups that succeed). -/
def attributedSeq (meta : List String) (hits : List Hit) : List String :=
  hits.filterMap (fun h => pyGet meta h.id)

/-- First-occurrence subsequence: the elements of a list in the order they
first appear, given an already-seen prefix. -/
def dedupFirst (seen : List String) : List String → List String
  | [] => []
  | p :: rest =>
    if p ∈ seen then dedupFirst seen rest
    else p :: dedupFirst (seen ++ [p]) rest

/-- Position of the first occurrence of `p` in `l` (equals `l.length` when
absent). -/
def posIn (l : List String) (p : String) : Nat :=
  match l with
  | [] => 0
  | q :: rest => if q = p then 0 else posIn rest p + 1

/-- Score list currently stored for a key in the grouping dict (empty when the
key is absent). -/
def getScores : List (String × List ℚ) → String → List ℚ
  | [], _ => []
  | (q, ss) :: rest, p => if q = p then ss else getScores rest p

/-- Keys after one `addScore`: unchanged if the key is present, appended at the
end otherwise. -/
theorem addScore_map_fst (g : List (String × List ℚ)) (p : String) (s : ℚ) :
    (addScore g p s).map Prod.fst =
      if p ∈ g.map Prod.fst then g.map Prod.fst else g.map Prod.fst ++ [p] := by
  induction g with
  | nil => simp [addScore]
  | cons pr rest ih =>
    obtain ⟨q, ss⟩ := pr
    by_cases hq : q = p
    · subst hq
      simp [addScore]
    · simp only [addScore, hq, if_neg, not_false_iff, List.map_cons]
      rw [ih]
      by_cases hp : p ∈ rest.map Prod.fst
      · simp [hp, Ne.symm hq]
      · simp [hp, Ne.symm hq]

/-- Stored scores after one `addScore`: the new score is appended to the added
key's list, other keys are untouched. -/
theorem getScores_addScore (g : List (String × List ℚ)) (pa p : String) (s : ℚ) :
    getScores (addScore g pa s) p =
      if p = pa then getScores g p ++ [s] else getScores g p := by
  induction g with
  | nil =>
    by_cases hp : p = pa
    · subst hp; simp [addScore, getScores]
    · simp [addScore, getScores, hp, Ne.symm hp]
  | cons pr rest ih =>
    obtain ⟨q, ss⟩ := pr
    by_cases hq : q = pa
    · subst hq
      by_cases hp : q = p
      · subst hp
        simp [addScore, getScores]
      · simp [addScore, getScores, hp, Ne.symm hp]
    · by_cases hp : q = p
      · have hppa : ¬p = pa := fun e => hq (hp.trans e)
        simp [addScore, getScores, hq, hp, hppa]
      · simp [addScore, getScores, hq, hp, ih]

/-- Membership in the first-occurrence subsequence. -/
theorem mem_dedupFirst (x : String) :
    ∀ (l seen : List String), x ∈ dedupFirst seen l ↔ x ∉ seen ∧ x ∈ l := by
  intro l
  induction l with
  | nil => intro seen; simp [dedupFirst]
  | cons p rest ih =>
    intro seen
    by_cases hp : p ∈ seen
    · simp only [dedupFirst, hp, if_pos]
      rw [ih]
      constructor
      · rintro ⟨h1, h2⟩; exact ⟨h1, by simp [h2]⟩
      · rintro ⟨h1, h2⟩
        rcases List.mem_cons.mp h2 with rfl | h2
        · exact absurd hp h1
        · exact ⟨h1, h2⟩
    · simp only [dedupFirst, hp, if_neg, not_false_iff]
      constructor
      · intro hx
        rcases List.mem_cons.mp hx with rfl | hx
        · exact ⟨hp, by simp⟩
        · have := (ih (seen ++ [p])).mp hx
          refine ⟨fun hs => this.1 (by simp [hs]), by simp [this.2]⟩
      · rintro ⟨h1, h2⟩
        rcases List.mem_cons.mp h2 with rfl | h2
        · simp
        · by_cases hxp : x = p
          · subst hxp; simp
          · exact List.mem_cons_of_mem _ ((ih (seen ++ [p])).mpr
              ⟨by simp [h1, hxp], h2⟩)

/-- The first-occurrence subsequence has no duplicates. -/
theorem nodup_dedupFirst : ∀ (l seen : List String), (dedupFirst seen l).Nodup := by
  intro l
  induction l with
  | nil => intro seen; simp [dedupFirst]
  | cons p rest ih =>
    intro seen
    by_cases hp : p ∈ seen
    · simpa [dedupFirst, hp] using ih seen
    · simp only [dedupFirst, hp, if_neg, not_false_iff]
      refine List.nodup_cons.mpr ⟨?_, ih (seen ++ [p])⟩
      intro hmem
      exact absurd (by simp : p ∈ seen ++ [p]) ((mem_dedupFirst p rest (seen ++ [p])).mp hmem).1

/-- Keys of the grouping dict after the loop: the starting keys followed by the
document ids of the candidates in first-occurrence order. -/
theorem groupHitsAux_map_fst (meta : List String) :
    ∀ (hits : List Hit) (g g' : List (String × List ℚ)),
      groupHitsAux meta g hits = some g' →
      g'.map Prod.fst =
        g.map Prod.fst ++ dedupFirst (g.map Prod.fst) (attributedSeq meta hits) := by
  intro hits
  induction hits with
  | nil =>
    intro g g' h
    simp only [groupHitsAux, Option.some.injEq] at h
    subst h
    simp [attributedSeq, dedupFirst]
  | cons h rest ih =>
    intro g g' hg
    simp only [groupHitsAux] at hg
    rcases hpy : pyGet meta h.id with _ | p
    · rw [hpy] at hg; cases hg
    · rw [hpy] at hg
      have hseq : attributedSeq meta (h :: rest) = p :: attributedSeq meta rest := by
        simp [attributedSeq, List.filterMap_cons, hpy]
      rw [hseq]
      have := ih (addScore g p h.score) g' hg
      rw [addScore_map_fst] at this
      by_cases hp : p ∈ g.map Prod.fst
      · rw [if_pos hp] at this
        simp only [dedupFirst, hp, if_pos]
        exact this
      · rw [if_neg hp] at this
        simp only [dedupFirst, hp, if_neg, not_false_iff]
        rw [this]
        simp

/-- Scores stored for each key after the loop: the starting scores followed by
the scores of exactly the hits attributed to that key, in retrieval order. -/
theorem groupHitsAux_getScores (meta : List String) :
    ∀ (hits : List Hit) (g g' : List (String × List ℚ)),
      groupHitsAux meta g hits = some g' →
      ∀ p, getScores g' p = getScores g p ++ scoresFor meta hits p := by
  intro hits
  induction hits with
  | nil =>
    intro g g' h p
    simp only [groupHitsAux, Option.some.injEq] at h
    subst h
    simp [scoresFor]
  | cons h rest ih =>
    intro g g' hg p
    simp only [groupHitsAux] at hg
    rcases hpy : pyGet meta h.id with _ | q
    · rw [hpy] at hg; cases hg
    · rw [hpy] at hg
      have hfor : scoresFor meta (h :: rest) p =
          (if p = q then [h.score] else []) ++ scoresFor meta rest p := by
        simp only [scoresFor, List.filter_cons, hpy]
        by_cases hpq : p = q
        · subst hpq; simp
        · have : (some q == some p) = false := by
            simp [beq_eq_false_iff_ne, Ne.symm hpq]
          simp [this, hpq]
      rw [hfor]
      have := ih (addScore g q h.score) g' hg p
      rw [getScores_addScore] at this
      by_cases hpq : p = q
      · rw [if_pos hpq] at this
        rw [this, if_pos hpq, List.append_assoc]
      · rw [if_neg hpq] at this
        rw [this, if_neg hpq, List.nil_append]

/-- With duplicate-free keys, dict membership is lookup: `(p, ss)` is an entry
iff `p` is a key and `ss` is its stored score list. -/
theorem mem_iff_getScores (g : List (String × List ℚ))
    (hnd : (g.map Prod.fst).Nodup) (p : String) (ss : List ℚ) :
    (p, ss) ∈ g ↔ p ∈ g.map Prod.fst ∧ getScores g p = ss := by
  induction g with
  | nil => simp
  | cons pr rest ih =>
    obtain ⟨q, ts⟩ := pr
    simp only [List.map_cons, List.nodup_cons] at hnd
    constructor
    · intro hm
      rcases List.mem_cons.mp hm with heq | hm
      · obtain ⟨rfl, rfl⟩ := Prod.mk.injEq .. ▸ heq
        refine ⟨by simp, by simp [getScores]⟩
      · have := (ih hnd.2).mp hm
        have hqp : ¬q = p := by
          intro e; subst e
          exact hnd.1 this.1
        exact ⟨by simp [this.1], by simp [getScores, hqp, this.2]⟩
    · rintro ⟨hmem, hsc⟩
      by_cases hqp : q = p
      · subst hqp
        simp only [getScores, if_pos rfl] at hsc
        subst hsc
        simp
      · have hp : p ∈ rest.map Prod.fst := by
          rcases List.mem_cons.mp hmem with e | h
          · exact absurd e.symm hqp
          · exact h
        simp only [getScores, hqp, if_neg, not_false_iff] at hsc
        exact List.mem_cons_of_mem _ ((ih hnd.2).mpr ⟨hp, hsc⟩)

/-- A document collects at least one score exactly when it appears among the
resolved candidate attributions. -/
theorem scoresFor_ne_nil_iff (meta : List String) (hits : List Hit) (p : String) :
    scoresFor meta hits p ≠ [] ↔ p ∈ attributedSeq meta hits := by
  constructor
  · intro hne
    have : hits.filter (fun h => pyGet meta h.id == some p) ≠ [] := by
      intro e; exact hne (by simp [scoresFor, e])
    rcases List.exists_mem_of_ne_nil _ this with ⟨h, hh⟩
    have := List.mem_filter.mp hh
    refine List.mem_filterMap.mpr ⟨h, this.1, ?_⟩
    have := of_decide_eq_true (by simpa using this.2)
    simpa using this
  · intro hmem
    obtain ⟨h, hh, hpy⟩ := List.mem_filterMap.mp hmem
    intro e
    have : h ∈ hits.filter (fun h => pyGet meta h.id == some p) :=
      List.mem_filter.mpr ⟨hh, by simp [hpy]⟩
    rw [show hits.filter (fun h => pyGet meta h.id == some p) = [] from by
      simpa [scoresFor] using e] at this
    simp at this

/-- With duplicate-free entries, the first-occurrence position of the `i`-th
element is `i`. -/
theorem posIn_get (keys : List String) (hnd : keys.Nodup) :
    ∀ (i : Fin keys.length), posIn keys (keys.get i) = i := by
  induction keys with
  | nil => intro i; exact absurd i.isLt (by simp)
  | cons q rest ih =>
    intro i
    rcases i with ⟨iv, hi⟩
    cases iv with
    | zero => simp [posIn]
    | succ j =>
      simp only [List.get_cons_succ]
      have hq : ¬q = rest.get ⟨j, by simpa using hi⟩ := by
        intro e
        exact (List.nodup_cons.mp hnd).1 (e ▸ List.get_mem rest j (by simpa using hi))
      simp only [posIn, hq, if_neg, not_false_iff]
      rw [ih (List.nodup_cons.mp hnd).2 ⟨j, by simpa using hi⟩]

/-- A duplicate-free list is strictly increasing in first-occurrence position. -/
theorem pairwise_posIn (keys : List String) (hnd : keys.Nodup) :
    List.Pairwise (fun p q => posIn keys p < posIn keys q) keys := by
  rw [List.pairwise_iff_get]
  intro i j hij
  rw [posIn_get keys hnd i, posIn_get keys hnd j]
  exact hij

/-- Elements of an insertion are the new element plus the old ones. -/
theorem mem_insertDesc {α : Type} (key : α → ℚ) (x a : α) :
    ∀ (l : List α), a ∈ insertDesc key x l ↔ a = x ∨ a ∈ l := by
  intro l
  induction l with
  | nil => simp [insertDesc]
  | cons y ys ih =>
    by_cases h : key y < key x
    · simp [insertDesc, h]
    · simp only [insertDesc, h, if_neg, not_false_iff, List.mem_cons, ih]
      tauto

/-- The head of an insertion is the new element or the old head. -/
theorem head?_insertDesc {α : Type} (key : α → ℚ) (x : α) :
    ∀ (l : List α),
      (insertDesc key x l).head? = some x ∨ (insertDesc key x l).head? = l.head? := by
  intro l
  cases l with
  | nil => left; rfl
  | cons y ys =>
    by_cases h : key y < key x
    · left; simp [insertDesc, h]
    · right; simp [insertDesc, h]

/-- Insertion is a permutation: the sorted output loses and gains nothing. -/
theorem insertDesc_perm {α : Type} (key : α → ℚ) (x : α) :
    ∀ (l : List α), List.Perm (insertDesc key x l) (x :: l) := by
  intro l
  induction l with
  | nil => rfl
  | cons y ys ih =>
    by_cases h : key y < key x
    · simp [insertDesc, h]
    · simp only [insertDesc, h, if_neg, not_false_iff]
      exact (ih.cons y).trans (List.Perm.swap x y ys)

/-- The stable descending sort permutes its input (continued from any
accumulator). -/
theorem sortDesc_aux_perm {α : Type} (key : α → ℚ) :
    ∀ (l acc : List α),
      List.Perm (l.foldl (fun acc x => insertDesc key x acc) acc) (acc ++ l) := by
  intro l
  induction l with
  | nil => intro acc; simp
  | cons x rest ih =>
    intro acc
    have h1 : (x :: rest).foldl (fun acc x => insertDesc key x acc) acc
        = rest.foldl (fun acc x => insertDesc key x acc) (insertDesc key x acc) := rfl
    rw [h1]
    refine ((ih _).trans ?_)
    refine ((insertDesc_perm key x acc).append_right rest).trans ?_
    exact List.perm_middle.symm

/-- The stable descending sort permutes its input. -/
theorem sortDesc_perm {α : Type} (key : α → ℚ) (l : List α) :
    List.Perm (sortDesc key l) l := by
  simpa using sortDesc_aux_perm key l []

/-- Stability of one insertion: inserting an element whose position tag exceeds
every element already placed keeps the list a chain of "strictly larger key,
or equal key and earlier position". -/
theorem chain_insertDesc {α : Type} (key : α → ℚ) (pos : α → Nat) (x : α) :
    ∀ (acc : List α),
      List.Chain' (fun a b => key b < key a ∨ (key a = key b ∧ pos a < pos b)) acc →
      (∀ a ∈ acc, pos a < pos x) →
      List.Chain' (fun a b => key b < key a ∨ (key a = key b ∧ pos a < pos b))
        (insertDesc key x acc) := by
  intro acc
  induction acc with
  | nil => intro _ _; simp [insertDesc]
  | cons y ys ih =>
    intro hch hpos
    by_cases h : key y < key x
    · simp only [insertDesc, h, if_pos]
      exact List.chain'_cons.mpr ⟨Or.inl h, hch⟩
    · simp only [insertDesc, h, if_neg, not_false_iff]
      have hch' := List.chain'_cons'.mp hch
      refine List.chain'_cons'.mpr ⟨?_, ih hch'.2
        (fun a ha => hpos a (List.mem_cons_of_mem y ha))⟩
      intro z hz
      rcases head?_insertDesc key x ys with he | he
      · rw [he] at hz
        simp only [Option.mem_def, Option.some.injEq] at hz
        subst hz
        rcases lt_or_eq_of_le (le_of_not_lt h) with hlt | heq
        · exact Or.inl hlt
        · exact Or.inr ⟨heq.symm, hpos y (List.mem_cons_self y ys)⟩
      · rw [he] at hz
        exact hch'.1 z hz

/-- Stability of the whole sort: starting from a chain-ordered accumulator and
feeding elements in strictly increasing position order yields a chain-ordered
result. -/
theorem chain_sortDesc_aux {α : Type} (key : α → ℚ) (pos : α → Nat) :
    ∀ (l acc : List α),
      List.Chain' (fun a b => key b < key a ∨ (key a = key b ∧ pos a < pos b)) acc →
      (∀ a ∈ acc, ∀ b ∈ l, pos a < pos b) →
      List.Pairwise (fun a b => pos a < pos b) l →
      List.Chain' (fun a b => key b < key a ∨ (key a = key b ∧ pos a < pos b))
        (l.foldl (fun acc x => insertDesc key x acc) acc) := by
  intro l
  induction l with
  | nil => intro acc hch _ _; exact hch
  | cons x rest ih =>
    intro acc hch hcross hpw
    have hpw' := List.pairwise_cons.mp hpw
    refine ih (insertDesc key x acc)
      (chain_insertDesc key pos x acc hch
        (fun a ha => hcross a ha x (List.mem_cons_self x rest)))
      ?_ hpw'.2
    intro a ha b hb
    rcases (mem_insertDesc key x a acc).mp ha with rfl | ha
    · exact hpw'.1 b hb
    · exact hcross a ha b (List.mem_cons_of_mem x hb)

/-- Stable descending sort of a list whose position tags strictly increase
left to right produces a chain: each adjacent pair has strictly descending
keys, or equal keys with the earlier-position element first. -/
theorem chain_sortDesc {α : Type} (key : α → ℚ) (pos : α → Nat) (l : List α)
    (hpw : List.Pairwise (fun a b => pos a < pos b) l) :
    List.Chain' (fun a b => key b < key a ∨ (key a = key b ∧ pos a < pos b))
      (sortDesc key l) :=
  chain_sortDesc_aux key pos l [] (by simp) (by simp) hpw

/-- C5: the ranked list is totally ordered descending by aggregate score, and
adjacent documents with equal aggregate scores keep the order in which their
document id first appears among the retrieved candidates (`dedupFirst` lists
the attributed document ids by first occurrence; `posIn` is the position in
that first-occurrence order).  This is Python's stable
`sorted(..., key=lambda x: x[1], reverse=True)` over the insertion-ordered
`per_pdf` dict (`ranker.py` lines 136-144). -/
theorem rankedList_total_order (meta : List String) (hits : List Hit)
    (ranked : List (String × ℚ)) (h : rankHits meta hits = some ranked) :
    List.Chain'
      (fun a b => b.2 < a.2 ∨ (a.2 = b.2 ∧
        posIn (dedupFirst [] (attributedSeq meta hits)) a.1 <
          posIn (dedupFirst [] (attributedSeq meta hits)) b.1)) ranked := by
  obtain ⟨g, hg, hr⟩ := Option.map_eq_some'.mp h
  subst hr
  have hkeys : g.map Prod.fst = dedupFirst [] (attributedSeq meta hits) := by
    simpa using groupHitsAux_map_fst meta hits [] g hg
  have hnd : (dedupFirst [] (attributedSeq meta hits)).Nodup :=
    nodup_dedupFirst _ []
  have hfst : (meansOf g).map Prod.fst = dedupFirst [] (attributedSeq meta hits) := by
    rw [← hkeys]
    simp [meansOf, List.map_map]
  have hpw0 := pairwise_posIn (dedupFirst [] (attributedSeq meta hits)) hnd
  have hpw : List.Pairwise
      (fun a b => posIn (dedupFirst [] (attributedSeq meta hits)) a.1 <
        posIn (dedupFirst [] (attributedSeq meta hits)) b.1) (meansOf g) := by
    have h2 : List.Pairwise
        (fun p q => posIn (dedupFirst [] (attributedSeq meta hits)) p <
          posIn (dedupFirst [] (attributedSeq meta hits)) q)
        ((meansOf g).map Prod.fst) := by
      rw [hfst]
      exact hpw0
    exact (@List.pairwise_map _ _ Prod.fst _ (meansOf g)).mp h2
  exact chain_sortDesc Prod.snd
    (fun pr => posIn (dedupFirst [] (attributedSeq meta hits)) pr.1) (meansOf g) hpw

/-- Witness for C5 at a concrete input: two library documents, a tie in
aggregate score (document A: mean {2} = 2; document B: mean {1, 3} = 2), with
A discovered first among the candidates. -/
theorem rankedList_total_order_witness :
    List.Chain'
      (fun a b => b.2 < a.2 ∨ (a.2 = b.2 ∧
        posIn (dedupFirst [] (attributedSeq ["A", "B"] [⟨2, 0⟩, ⟨1, 1⟩, ⟨3, 1⟩])) a.1 <
          posIn (dedupFirst [] (attributedSeq ["A", "B"] [⟨2, 0⟩, ⟨1, 1⟩, ⟨3, 1⟩])) b.1))
      ([("A", 2), ("B", 2)] : List (String × ℚ)) :=
  rankedList_total_order ["A", "B"] [⟨2, 0⟩, ⟨1, 1⟩, ⟨3, 1⟩] [("A", 2), ("B", 2)]
    (by simp [rankHits, groupHits, groupHitsAux, pyGet, addScore, meansOf, mean,
          sortDesc, insertDesc]
        norm_num)

/-- C6: a document's aggregate score is the arithmetic mean of the similarity
scores of exactly its matched chunks — the hits of the top-K search whose
position resolves to that document — and a document appears in the ranked list
exactly when it has at least one matched chunk (`ranker.py` lines 136-144). -/
theorem rankedList_scores (meta : List String) (hits : List Hit)
    (ranked : List (String × ℚ)) (h : rankHits meta hits = some ranked)
    (p : String) (sc : ℚ) :
    (p, sc) ∈ ranked ↔
      scoresFor meta hits p ≠ [] ∧ sc = mean (scoresFor meta hits p) := by
  obtain ⟨g, hg, hr⟩ := Option.map_eq_some'.mp h
  subst hr
  rw [(sortDesc_perm Prod.snd (meansOf g)).mem_iff]
  have hkeys : g.map Prod.fst = dedupFirst [] (attributedSeq meta hits) := by
    simpa using groupHitsAux_map_fst meta hits [] g hg
  have hnd : (g.map Prod.fst).Nodup := by
    rw [hkeys]; exact nodup_dedupFirst _ []
  have hget : ∀ q, getScores g q = scoresFor meta hits q := by
    intro q
    simpa [getScores] using groupHitsAux_getScores meta hits [] g hg q
  constructor
  · intro hm
    simp only [meansOf, List.mem_map] at hm
    obtain ⟨⟨q, ss⟩, hqg, heq⟩ := hm
    have hq1 : q = p := congrArg Prod.fst heq
    have hq2 : mean ss = sc := congrArg Prod.snd heq
    subst hq1
    have hm2 := (mem_iff_getScores g hnd q ss).mp hqg
    have hss : ss = scoresFor meta hits q := by rw [← hget q, hm2.2]
    have hmemseq : q ∈ attributedSeq meta hits := by
      have := hm2.1
      rw [hkeys] at this
      exact ((mem_dedupFirst q _ []).mp this).2
    exact ⟨(scoresFor_ne_nil_iff meta hits q).mpr hmemseq, by rw [← hq2, hss]⟩
  · rintro ⟨hne, rfl⟩
    have hmemseq := (scoresFor_ne_nil_iff meta hits p).mp hne
    have hkey : p ∈ g.map Prod.fst := by
      rw [hkeys]
      exact (mem_dedupFirst p _ []).mpr ⟨by simp, hmemseq⟩
    have hmem := (mem_iff_getScores g hnd p (getScores g p)).mpr ⟨hkey, rfl⟩
    simp only [meansOf, List.mem_map]
    exact ⟨(p, getScores g p), hmem, by rw [hget p]⟩

/-- Witness for C6 at a concrete input: one library document, one hit. -/
theorem rankedList_scores_witness :
    (("A", (1 : ℚ)) ∈ [(("A" : String), (1 : ℚ))]) ↔
      scoresFor ["A"] [⟨1, 0⟩] "A" ≠ [] ∧
        (1 : ℚ) = mean (scoresFor ["A"] [⟨1, 0⟩] "A") :=
  rankedList_scores ["A"] [⟨1, 0⟩] [("A", 1)]
    (by simp [rankHits, groupHits, groupHitsAux, pyGet, addScore, meansOf, mean,
          sortDesc, insertDesc]) "A" 1

/-- A document of the query directory: its filename and its extracted text as a
list of sentences (each a word list). -/
structure QueryDoc where
  name : String
  sents : List (List String)

/-- The query chunk set: `q_chunks.extend(chunk_text(text, ...))` over every
query PDF (`ranker.py` lines 118-122), at the configured chunk parameters. -/
def queryChunks (qdocs : List QueryDoc) : List (List String) :=
  qdocs.foldl (fun acc d => acc ++ chunk_text CHUNK_WORDS CHUNK_OVERLAP d.sents) []

/-- The query side of `rank_with_queries` up to the search call
(`ranker.py` lines 115-134): the only guard is `assert q_pdfs` on the list of
PDF *files*; when it passes, the derived chunk list — empty or not — proceeds
to embedding and the index search. -/
def queryPhase (qdocs : List QueryDoc) : Except String (List (List String)) :=
  if qdocs.isEmpty then Except.error "No PDFs in query_pdfs/"
  else Except.ok (queryChunks qdocs)

/-- Counterexample to C1 as stated: a query directory holding one PDF whose
extraction yields no text has an empty query-chunk set, yet the guard passes
(`assert q_pdfs` only checks the file list) and execution proceeds toward the
search instead of aborting. -/
theorem emptyQueryGuard_counterexample :
    queryChunks [⟨"q.pdf", []⟩] = [] ∧
    queryPhase [⟨"q.pdf", []⟩] = Except.ok [] := by
  exact ⟨rfl, rfl⟩

/-- C1 (amended): the hard stop of the pipeline triggers exactly when the query
directory holds no PDF files; an empty query-chunk set derived from existing
PDF files is not caught by the guard and reaches the embedding/search stage. -/
theorem emptyQueryGuard_amended (qdocs : List QueryDoc) :
    queryPhase qdocs = Except.error "No PDFs in query_pdfs/" ↔ qdocs = [] := by
  cases qdocs <;> simp [queryPhase]

/-- A document of the library directory: its filename and its extracted text as
a list of sentences (each a word list). -/
structure LibDoc where
  name : String
  sents : List (List String)

/-- The chunk/metadata accumulation of `build_index` (`ranker.py` lines 76-88):
for each library PDF, skip it when extraction yields no text (`if not
text.strip(): continue`, modelled as an empty sentence list), otherwise append
each of its chunks together with a metadata record carrying the filename. -/
def buildPairs (cw ov : Nat) (lib : List LibDoc) : List (String × List String) :=
  lib.foldl (fun acc d =>
    if d.sents.isEmpty then acc
    else acc ++ (chunk_text cw ov d.sents).map (fun c => (d.name, c))) []

/-- The metadata array `meta` of `build_index` (the `{"pdf": pdf}` records). -/
def buildMeta (cw ov : Nat) (lib : List LibDoc) : List String :=
  (buildPairs cw ov lib).map Prod.fst

/-- The retained library chunks `all_chunks` of `build_index`. -/
def buildChunks (cw ov : Nat) (lib : List LibDoc) : List (List String) :=
  (buildPairs cw ov lib).map Prod.snd

/-- The vectors stored in the faiss index: `index.add(model.encode(all_chunks))`
(`ranker.py` lines 92-101), with the embedding model opaque. -/
def buildVectors (embed : List String → List ℚ) (cw ov : Nat)
    (lib : List LibDoc) : List (List ℚ) :=
  (buildChunks cw ov lib).map embed

/-- Counterexample to C2 as stated: with an empty library the metadata array is
empty; a faiss search over the empty index returns only filler rows with id
`-1`, and the grouping loop's `meta[i]` then indexes the empty metadata array —
an uncaught `IndexError` (`none`), not a completed run with an empty ranking. -/
theorem emptyLibrary_counterexample :
    buildMeta 500 80 [] = [] ∧
    faissResult 0 50 (List.replicate 50 ⟨0, -1⟩) ∧
    rankHits [] (List.replicate 50 ⟨0, -1⟩) = none ∧
    rankHits [] (List.replicate 50 ⟨0, -1⟩) ≠ some [] :=
  ⟨rfl, by decide, by decide, by decide⟩

/-- C2 (amended): for every run whose library-chunk set is empty, ranking does
not degrade to an empty ranked list — the first filler hit makes `meta[-1]`
fail on the empty metadata array and the run aborts with an uncaught error. -/
theorem emptyLibrary_amended (k : Nat) (hits : List Hit) (hk : 0 < k)
    (hf : faissResult 0 k hits) : rankHits [] hits = none := by
  rcases hits with _ | ⟨h, rest⟩
  · have := hf.1
    simp only [List.length_nil] at this
    omega
  · have hid : h.id = -1 := hf.2.2 h (by simp)
    simp [rankHits, groupHits, groupHitsAux, pyGet, hid]

/-- Witness for C2's amended theorem at the run's actual parameters
(`TOP_K = 50`). -/
theorem emptyLibrary_amended_witness :
    rankHits [] (List.replicate 50 ⟨0, -1⟩) = none :=
  emptyLibrary_amended 50 (List.replicate 50 ⟨0, -1⟩) (by decide) (by decide)

/-- C8: after index construction the metadata array and the vector store are
position-aligned with the retained library chunks — equal lengths, and the
record at each position carries the filename of the document whose chunk is
embedded at that position (`ranker.py` lines 75-105, `meta` and `all_chunks`
are appended in lockstep and the vectors are the chunk embeddings in order). -/
theorem index_alignment (cw ov : Nat) (lib : List LibDoc)
    (embed : List String → List ℚ) (i : Nat) (d : String) (c : List String)
    (hp : (buildPairs cw ov lib).get? i = some (d, c)) :
    (buildMeta cw ov lib).length = (buildVectors embed cw ov lib).length ∧
    (buildVectors embed cw ov lib).length = (buildChunks cw ov lib).length ∧
    (buildChunks cw ov lib).length = (buildPairs cw ov lib).length ∧
    (buildMeta cw ov lib).get? i = some d ∧
    (buildChunks cw ov lib).get? i = some c ∧
    (buildVectors embed cw ov lib).get? i = some (embed c) := by
  refine ⟨by simp [buildMeta, buildVectors, buildChunks],
    by simp [buildVectors], by simp [buildChunks], ?_, ?_, ?_⟩
  · rw [buildMeta, List.get?_map, hp]; rfl
  · rw [buildChunks, List.get?_map, hp]; rfl
  · rw [buildVectors, buildChunks, List.get?_map, List.get?_map, hp]; rfl

/-- Witness for C8 at a concrete input: one library document with one retained
chunk, and a toy embedding. -/
theorem index_alignment_witness :
    (buildMeta 500 80 [⟨"d.pdf", [List.replicate 41 "w"]⟩]).length =
        (buildVectors (fun c => [(c.length : ℚ)]) 500 80
          [⟨"d.pdf", [List.replicate 41 "w"]⟩]).length ∧
    (buildVectors (fun c => [(c.length : ℚ)]) 500 80
        [⟨"d.pdf", [List.replicate 41 "w"]⟩]).length =
      (buildChunks 500 80 [⟨"d.pdf", [List.replicate 41 "w"]⟩]).length ∧
    (buildChunks 500 80 [⟨"d.pdf", [List.replicate 41 "w"]⟩]).length =
      (buildPairs 500 80 [⟨"d.pdf", [List.replicate 41 "w"]⟩]).length ∧
    (buildMeta 500 80 [⟨"d.pdf", [List.replicate 41 "w"]⟩]).get? 0 = some "d.pdf" ∧
    (buildChunks 500 80 [⟨"d.pdf", [List.replicate 41 "w"]⟩]).get? 0 =
      some (List.replicate 41 "w") ∧
    (buildVectors (fun c => [(c.length : ℚ)]) 500 80
        [⟨"d.pdf", [List.replicate 41 "w"]⟩]).get? 0 =
      some ((fun c : List String => [(c.length : ℚ)]) (List.replicate 41 "w")) :=
  index_alignment 500 80 [⟨"d.pdf", [List.replicate 41 "w"]⟩]
    (fun c => [(c.length : ℚ)]) 0 "d.pdf" (List.replicate 41 "w") (by decide)

/-- The grouping loop succeeds whenever every hit id resolves in the metadata
array. -/
theorem groupHitsAux_isSome (meta : List String) :
    ∀ (hits : List Hit) (g : List (String × List ℚ)),
      (∀ h ∈ hits, (pyGet meta h.id).isSome) →
      ∃ g', groupHitsAux meta g hits = some g' := by
  intro hits
  induction hits with
  | nil => intro g _; exact ⟨g, rfl⟩
  | cons h rest ih =>
    intro g hall
    have := hall h (by simp)
    rcases hpy : pyGet meta h.id with _ | p
    · rw [hpy] at this; simp at this
    · simp only [groupHitsAux, hpy]
      exact ih (addScore g p h.score) (fun x hx => hall x (by simp [hx]))

/-- C10: when the index holds at least `K` vectors, every id the search returns
is a non-negative in-bounds position of the metadata array — each retrieved
score is attributed to the document owning the retrieved chunk and the grouping
loop cannot fail; when the index holds fewer than `K` vectors the filler id
`-1` reaches `meta[i]`, and Python's negative indexing silently attributes the
filler row to the document of the *last* stored chunk (`ranker.py` lines
134-138). -/
theorem search_id_bounds (meta : List String) (k : Nat) (hits : List Hit)
    (hf : faissResult meta.length k hits) :
    (k ≤ meta.length →
      ∀ h ∈ hits, ∃ j : Fin meta.length,
        h.id = (j : Nat) ∧ pyGet meta h.id = some (meta.get j)) ∧
    (k ≤ meta.length → ∃ g, groupHits meta hits = some g) ∧
    (meta.length < k → 0 < meta.length →
      ∀ h ∈ hits.drop meta.length,
        h.id = -1 ∧ pyGet meta h.id = meta.get? (meta.length - 1)) := by
  have hin : k ≤ meta.length →
      ∀ h ∈ hits, ∃ j : Fin meta.length,
        h.id = (j : Nat) ∧ pyGet meta h.id = some (meta.get j) := by
    intro hk h hh
    have htake : hits.take meta.length = hits :=
      List.take_of_length_le (by rw [hf.1]; exact hk)
    have hb := hf.2.1 h (by rw [htake]; exact hh)
    have hlt : h.id.toNat < meta.length := by omega
    refine ⟨⟨h.id.toNat, hlt⟩, by simpa using (Int.toNat_of_nonneg hb.1).symm, ?_⟩
    simp only [pyGet, hb.1, if_pos]
    exact List.get?_eq_get hlt
  refine ⟨hin, ?_, ?_⟩
  · intro hk
    refine groupHitsAux_isSome meta hits [] ?_
    intro h hh
    obtain ⟨j, _, hpy⟩ := hin hk h hh
    simp [hpy]
  · intro _ hpos h hh
    have hid := hf.2.2 h hh
    refine ⟨hid, ?_⟩
    rw [hid]
    have h1 : ((-1 : Int)).natAbs = 1 := rfl
    simp only [pyGet, h1]
    rw [if_neg (by norm_num), if_pos (by omega)]

/-- Witness for C10 at a concrete input: one stored vector, candidate count 2 —
the second row is filler and resolves to the last (only) document. -/
theorem search_id_bounds_witness :
    ((2 ≤ (["A"] : List String).length →
      ∀ h ∈ [(⟨1, 0⟩ : Hit), ⟨0, -1⟩], ∃ j : Fin (["A"] : List String).length,
        h.id = (j : Nat) ∧ pyGet ["A"] h.id = some ((["A"] : List String).get j)) ∧
    (2 ≤ (["A"] : List String).length →
      ∃ g, groupHits ["A"] [(⟨1, 0⟩ : Hit), ⟨0, -1⟩] = some g) ∧
    ((["A"] : List String).length < 2 → 0 < (["A"] : List String).length →
      ∀ h ∈ ([(⟨1, 0⟩ : Hit), ⟨0, -1⟩]).drop (["A"] : List String).length,
        h.id = -1 ∧ pyGet ["A"] h.id = (["A"] : List String).get? ((["A"] : List String).length - 1))) :=
  search_id_bounds ["A"] 2 [⟨1, 0⟩, ⟨0, -1⟩] (by decide)

/-- Two-digit rank prefix: Python's `f"{rank:02d}"` for ranks below 100. -/
def fmt2 (n : Nat) : String :=
  if n < 10 then "0" ++ toString n else toString n

/-- The destination names of the materialization loop (`ranker.py` lines
150-156): `TOP_COPY = min(30, len(ranked))`, and for each of the first
`TOP_COPY` ranked documents, rank-prefixed `f"{rank:02d}_{pdf}"` with ranks
counted from 1. -/
def copyPlan (ranked : List (String × ℚ)) : List String :=
  (List.enumFrom 1 (ranked.take (min 30 ranked.length))).map
    (fun x => fmt2 x.1 ++ "_" ++ x.2.1)

/-- The copies that actually land (`shutil.copy2` wrapped in `try/except`,
`ranker.py` lines 158-161): each failing copy is skipped on its own, the loop
always continues. -/
def copiedFiles (ok : String → Bool) (ranked : List (String × ℚ)) : List String :=
  (copyPlan ranked).filter ok

/-- Ranks 1 to 30 format to exactly two digits. -/
theorem fmt2_length_two : ∀ n : Fin 31, 0 < (n : Nat) → (fmt2 (n : Nat)).length = 2 := by
  decide

/-- C7: materialization attempts exactly `min(30, len(ranked))` copies, the
`i`-th (0-based) named with the two-digit rank prefix `i+1` followed by an
underscore and the original filename; with no copy failures exactly that many
files land, and failures only remove their own file, never later ones (the
copied list is always a sublist of the full plan). -/
theorem materializer_copies (ranked : List (String × ℚ)) (ok : String → Bool) :
    (copyPlan ranked).length = min 30 ranked.length ∧
    (∀ i d sc, ranked.get? i = some (d, sc) → i < 30 →
      (copyPlan ranked).get? i = some (fmt2 (i + 1) ++ "_" ++ d)) ∧
    (∀ i, i < (copyPlan ranked).length → (fmt2 (i + 1)).length = 2) ∧
    ((∀ name, ok name = true) → copiedFiles ok ranked = copyPlan ranked) ∧
    List.Sublist (copiedFiles ok ranked) (copyPlan ranked) := by
  have hlen : (copyPlan ranked).length = min 30 ranked.length := by
    simp only [copyPlan, List.length_map, List.enumFrom_length, List.length_take]
    omega
  refine ⟨hlen, ?_, ?_, ?_, List.filter_sublist _⟩
  · intro i d sc hget hi
    have hib : i < ranked.length := by
      by_contra hc
      rw [List.get?_eq_none.mpr (by omega)] at hget
      cases hget
    have hitake : i < min 30 ranked.length := by omega
    simp only [copyPlan, List.get?_map, List.get?_enumFrom,
      List.get?_take hitake, hget]
    simp [Nat.add_comm 1 i]
  · intro i hi
    rw [hlen] at hi
    have := fmt2_length_two ⟨i + 1, by omega⟩ (by simp)
    simpa using this
  · intro hall
    exact List.filter_eq_self.mpr (fun a _ => hall a)

/-- Witness for C7 at a concrete input: two ranked documents, all copies
succeed. -/
theorem materializer_copies_witness :
    (copyPlan [("r.pdf", 1), ("s.pdf", 0)]).length =
        min 30 ([("r.pdf", (1 : ℚ)), ("s.pdf", 0)]).length ∧
    (∀ i d sc, ([("r.pdf", (1 : ℚ)), ("s.pdf", 0)]).get? i = some (d, sc) → i < 30 →
      (copyPlan [("r.pdf", 1), ("s.pdf", 0)]).get? i = some (fmt2 (i + 1) ++ "_" ++ d)) ∧
    (∀ i, i < (copyPlan [("r.pdf", 1), ("s.pdf", 0)]).length → (fmt2 (i + 1)).length = 2) ∧
    ((∀ name, (fun (_ : String) => true) name = true) →
      copiedFiles (fun _ => true) [("r.pdf", 1), ("s.pdf", 0)] =
        copyPlan [("r.pdf", 1), ("s.pdf", 0)]) ∧
    List.Sublist (copiedFiles (fun _ => true) [("r.pdf", 1), ("s.pdf", 0)])
      (copyPlan [("r.pdf", 1), ("s.pdf", 0)]) :=
  materializer_copies [("r.pdf", 1), ("s.pdf", 0)] (fun _ => true)

end DocRanker
